import Mathlib

/-
Verification development for the TextAnalyzer repository
(src/text_analyzer.py, src/test_text_analyzer.py).

Shallow embedding conventions:
- A Python string is modelled as its list of Unicode code points
  (`Str := List Nat`).
- `collections.Counter` is modelled as an insertion-ordered association
  list from word to count (`Counter`), matching CPython dict semantics:
  updating an existing key keeps its position, a fresh key is appended.
- `WordCounter.all_words` is an insertion-ordered association list from
  source name to its `Counter` (`Table`).
- `str.lower` is modelled on the code-point ranges exercised by this
  repository (ASCII letters and the Cyrillic block used in the tests);
  outside those ranges it is the identity.
- `str.split()` is modelled as splitting on runs of ASCII whitespace.
- `functools.lru_cache` on `TextProcessor._process_text` is a
  memoization of a pure function and is dropped from the model.
-/

namespace TextAnalyzer

/-- A Python string, as its list of Unicode code points. -/
abbrev Str := List Nat

/-- Code points of a Lean string literal, for writing concrete inputs. -/
def strLit (s : String) : Str := s.data.map Char.toNat

/-- `collections.Counter`: insertion-ordered mapping word → count. -/
abbrev Counter := List (Str × Nat)

/-- `WordCounter.all_words`: insertion-ordered mapping source → counter. -/
abbrev Table := List (Str × Counter)

/-- `str.lower` at the level of one code point: ASCII `A`-`Z` and
Cyrillic `А`-`Я` shift by 32, `Ё` maps to `ё`, everything else is kept
(identity outside the ranges this repository exercises). -/
def lowerCode (n : Nat) : Nat :=
  if 65 ≤ n ∧ n ≤ 90 then n + 32
  else if 1040 ≤ n ∧ n ≤ 1071 then n + 32
  else if n = 1025 then 1105
  else n

/-- `text.lower()`. -/
def pyLower (s : Str) : Str := s.map lowerCode

/-- Code points of `string.punctuation`:
`!"#$%&'()*+,-./:;<=>?@[\]^_`` ``{|}~`. -/
def punctuationCodes : List Nat :=
  [33, 34, 35, 36, 37, 38, 39, 40, 41, 42, 43, 44, 45, 46, 47,
   58, 59, 60, 61, 62, 63, 64, 91, 92, 93, 94, 95, 96, 123, 124, 125, 126]

/-- `string.punctuation.replace('-', '')`: the characters the translate
table deletes (code point 45 is the hyphen). -/
def deleteCodes : List Nat := punctuationCodes.filter (fun n => n ≠ 45)

/-- `text.translate(str.maketrans('', '', string.punctuation.replace('-', '')))`:
delete every character of `deleteCodes`. -/
def translateDel (s : Str) : Str := s.filter (fun n => ¬ deleteCodes.contains n)

/-- ASCII whitespace, the characters `str.split()` splits on
(space, tab, newline, carriage return, vertical tab, form feed). -/
def isSpaceCode (n : Nat) : Bool :=
  n = 32 || n = 9 || n = 10 || n = 13 || n = 11 || n = 12

/-- Worker for `str.split()`: walk the text, accumulating the current
token in reverse; whitespace flushes the (nonempty) token. -/
def splitAux : Str → Str → List Str
  | [], acc => if acc.isEmpty then [] else [acc.reverse]
  | c :: cs, acc =>
    if isSpaceCode c then
      if acc.isEmpty then splitAux cs [] else acc.reverse :: splitAux cs []
    else splitAux cs (c :: acc)

/-- `text.split()`: split on runs of whitespace, dropping empty tokens. -/
def pySplit (s : Str) : List Str := splitAux s []

/-- `TextProcessor._process_text`: lowercase, delete punctuation except
the hyphen, split on whitespace. -/
def processText (text : Str) : List Str :=
  pySplit (translateDel (pyLower text))

/-- Does the counter hold the key `w`? (`elem in dict`). -/
def containsKeyC (c : Counter) (w : Str) : Bool := c.any (fun p => p.1 = w)

/-- `Counter.__getitem__`: the stored count of `w`, or 0 when absent
(`Counter.__missing__` returns 0 and stores nothing). -/
def counterGet : Counter → Str → Nat
  | [], _ => 0
  | (v, n) :: rest, w => if v = w then n else counterGet rest w

/-- `dict.__setitem__`: overwrite the value of an existing key in place
(keeping its position), or append a fresh key at the end. -/
def dictSet (c : Counter) (v : Str) (n : Nat) : Counter :=
  match c with
  | [] => [(v, n)]
  | (a, k) :: rest => if a = v then (a, n) :: rest else (a, k) :: dictSet rest v n

/-- One step of `Counter.update`: `self[elem] = self.get(elem, 0) + 1` —
an existing key is bumped in place, a fresh key is appended with count 1. -/
def counterUpdateOne (c : Counter) (v : Str) : Counter :=
  dictSet c v (counterGet c v + 1)

/-- `Counter.update(words)` for a list of words. -/
def counterAdd (c : Counter) (ws : List Str) : Counter :=
  ws.foldl counterUpdateOne c

/-- Does the table hold the source `s`? (`file_name in self.all_words`). -/
def containsKey (t : Table) (s : Str) : Bool := t.any (fun p => p.1 = s)

/-- `self.all_words[file_name] = Counter()` when the source is missing. -/
def ensureEntry (t : Table) (s : Str) : Table :=
  if containsKey t s then t else t ++ [(s, [])]

/-- Update the counter stored under source `s` with the words `ws`. -/
def updateEntry (t : Table) (s : Str) (ws : List Str) : Table :=
  t.map (fun p => if p.1 = s then (p.1, counterAdd p.2 ws) else p)

/-- `WordCounter.add_words(file_name, words)`. -/
def addWords (t : Table) (s : Str) (ws : List Str) : Table :=
  updateEntry (ensureEntry t s) s ws

/-- `WordCounter.add_words` with a possibly-null `words` argument.
CPython's `Counter.update(None)` is a documented no-op (its body is
guarded by `if iterable is not None`), so the null case raises nothing:
the method still creates the source's empty counter, then returns. -/
def addWordsChecked (t : Table) (s : Str) (ws : Option (List Str)) :
    Except String Table :=
  match ws with
  | none => .ok (ensureEntry t s)
  | some l => .ok (updateEntry (ensureEntry t s) s l)

/-- The counter stored for source `s`, or the empty counter. -/
def tableGet : Table → Str → Counter
  | [], _ => []
  | (v, c) :: rest, s => if v = s then c else tableGet rest s

/-- The count of word `w` for source `s` in table `t`. -/
def tableCount (t : Table) (s w : Str) : Nat := counterGet (tableGet t s) w

/-- The loop of `WordCounter.count_word_occurrences`: keep each source
whose count of `w` is strictly positive. -/
def countLoop : Table → Str → List (Str × Nat)
  | [], _ => []
  | (s, c) :: rest, w =>
    if 0 < counterGet c w then (s, counterGet c w) :: countLoop rest w
    else countLoop rest w

/-- `WordCounter.count_word_occurrences(word)`: lowercase the query,
then keep the sources with positive count. -/
def countWordOccurrences (t : Table) (w : Str) : List (Str × Nat) :=
  countLoop t (pyLower w)

/-- The predicate of `FileWordsFinder.filter_words`'s comprehension:
`len(word) >= min_length and (starts_with is None or word.startswith(starts_with))`. -/
def keepWord (minLength : Nat) (startsWith : Option Str) (w : Str) : Bool :=
  decide (minLength ≤ w.length) &&
    (match startsWith with
     | none => true
     | some p => p.isPrefixOf w)

/-- `FileWordsFinder.filter_words(min_length, starts_with)`: per source,
the counter's keys (in insertion order) passing the filter. -/
def filterWords (t : Table) (minLength : Nat) (startsWith : Option Str) :
    List (Str × List Str) :=
  t.map (fun p => (p.1, (p.2.map Prod.fst).filter (keepWord minLength startsWith)))

/-- `sum(counter.values())`, the sort key of the `'frequency'` branch. -/
def sumCounts (c : Counter) : Nat := (c.map Prod.snd).sum

/-- Lexicographic order on code-point strings, Python's `<=` on `str`. -/
def strLe : Str → Str → Bool
  | [], _ => true
  | _ :: _, [] => false
  | a :: as, b :: bs => if a < b then true else if b < a then false else strLe as bs

/-- `FileWordsFinder.sort_results(all_word_counts, sort_by)`:
Python's `sorted` is a stable merge sort, modelled by `List.mergeSort`;
`reverse=True` on the frequency key is the flipped comparison, stable on
ties; `'alphabetical'` sorts the dict items by source key; any other
`sort_by` returns the table unchanged. -/
def sortResults (t : Table) (sortBy : Str) : Table :=
  if sortBy = strLit "frequency" then
    t.mergeSort (fun a b => decide (sumCounts b.2 ≤ sumCounts a.2))
  else if sortBy = strLit "alphabetical" then
    t.mergeSort (fun a b => strLe a.1 b.1)
  else t

/-- One iteration body of `FileWordsFinder.get_all_words`: read the
file, normalize, aggregate; a read failure (missing file, decode error,
any other `Exception`) surfaces as `.error` before being caught.  The
file system is an abstract map from name to readable content. -/
def readStep (fs : Str → Option Str) (name : Str) (wc : Table) :
    Except Str Table :=
  match fs name with
  | some text => .ok (addWords wc name (processText text))
  | none => .error name

/-- `FileWordsFinder.get_all_words`: every per-file error is caught by
the `try/except` around the body (`handle_error` only logs), and the
loop continues with the table unchanged. -/
def getAllWordsE (fs : Str → Option Str) : List Str → Table → Except Str Table
  | [], wc => .ok wc
  | name :: rest, wc =>
    match readStep fs name wc with
    | .ok wc' => getAllWordsE fs rest wc'
    | .error _ => getAllWordsE fs rest wc

/-- The table `FileWordsFinder.get_all_words` builds: readable files are
aggregated, failed files are skipped. -/
def getAllWords (fs : Str → Option Str) : List Str → Table → Table
  | [], wc => wc
  | name :: rest, wc =>
    match fs name with
    | some text => getAllWords fs rest (addWords wc name (processText text))
    | none => getAllWords fs rest wc

/-- `counter[word]` with the state threaded through: the returned pair
is (count, the counter after the access).  A missing key goes through
`Counter.__missing__`, which returns 0 and stores nothing. -/
def counterGetSt : Counter → Str → Nat × Counter
  | [], _ => (0, [])
  | (v, n) :: rest, w =>
    if v = w then (n, (v, n) :: rest)
    else
      let r := counterGetSt rest w
      (r.1, (v, n) :: r.2)

/-- The loop of `count_word_occurrences` with the table state threaded:
each iteration's counter access returns the possibly-updated counter,
which is written back into the table. -/
def countLoopSt : Table → Str → List (Str × Nat) × Table
  | [], _ => ([], [])
  | (s, c) :: rest, w =>
    let g := counterGetSt c w
    let r := countLoopSt rest w
    (if 0 < g.1 then (s, g.1) :: r.1 else r.1, (s, g.2) :: r.2)

/-- `count_word_occurrences` with the table state threaded. -/
def countWordOccurrencesSt (t : Table) (w : Str) :
    List (Str × Nat) × Table :=
  countLoopSt t (pyLower w)

/-- `for word in counter` with the state threaded: dict iteration reads
the keys in order and mutates nothing. -/
def counterKeysSt : Counter → List Str × Counter
  | [] => ([], [])
  | (v, n) :: rest =>
    let r := counterKeysSt rest
    (v :: r.1, (v, n) :: r.2)

/-- `filter_words` with the table state threaded. -/
def filterWordsSt (t : Table) (minLength : Nat) (startsWith : Option Str) :
    List (Str × List Str) × Table :=
  match t with
  | [] => ([], [])
  | (s, c) :: rest =>
    let k := counterKeysSt c
    let r := filterWordsSt rest minLength startsWith
    ((s, k.1.filter (keepWord minLength startsWith)) :: r.1, (s, k.2) :: r.2)

/-- Tables reachable from the empty `WordCounter` by `add_words` calls. -/
inductive Reachable : Table → Prop
  | empty : Reachable []
  | step (t : Table) (s : Str) (ws : List Str) :
      Reachable t → Reachable (addWords t s ws)

/-- `' '.join(words)`: the words joined by single spaces (code point 32). -/
def joinSpace : List Str → Str
  | [] => []
  | [w] => w
  | w :: ws => w ++ 32 :: joinSpace ws

/-- Claim C1 (code bug witness): `_process_text` does NOT discard purely
numeric tokens — digits are not in `string.punctuation`, so
`"Hello 123, world 456!"` normalizes to `["hello","123","world","456"]`,
not to the `["hello","world"]` required by the spec and by the repo's
own test `test_process_text_with_numbers`. -/
theorem process_text_keeps_numeric_tokens :
    processText (strLit "Hello 123, world 456!") =
      [strLit "hello", strLit "123", strLit "world", strLit "456"] ∧
    processText (strLit "Hello 123, world 456!") ≠
      [strLit "hello", strLit "world"] := by
  constructor
  · decide
  · decide

/-- Claim C2 (code bug witness): `add_words` stores the words exactly as
given — it never lowercases them — so after
`add_words("file1.txt", ["Hello","world","HELLO"])` the stored counter
keeps the mixed-case keys and the count of `"hello"` is 0, not the 2
required by the spec and by the repo's own test
`test_add_words_case_insensitive`. -/
theorem add_words_does_not_lowercase :
    tableGet (addWords [] (strLit "file1.txt")
        [strLit "Hello", strLit "world", strLit "HELLO"]) (strLit "file1.txt") =
      [(strLit "Hello", 1), (strLit "world", 1), (strLit "HELLO", 1)] ∧
    tableCount (addWords [] (strLit "file1.txt")
        [strLit "Hello", strLit "world", strLit "HELLO"]) (strLit "file1.txt")
        (strLit "hello") = 0 := by
  constructor
  · decide
  · decide

/-- Claim C3 (code bug witness): calling `add_words` with a null `words`
raises nothing — `Counter.update(None)` is a no-op in CPython — and the
failed call still mutates the table by inserting an empty counter for
the source.  This contradicts the spec's `InvalidInput` contract and the
repo's own test `test_add_words_with_none`, which expects a `TypeError`. -/
theorem add_words_none_silently_noops :
    addWordsChecked [] (strLit "file1.txt") none =
      .ok [(strLit "file1.txt", [])] ∧
    ([(strLit "file1.txt", ([] : Counter))] : Table) ≠ [] := by
  exact ⟨rfl, by decide⟩

/-- Claim C6: normalization lowercases with Unicode-aware folding and
deletes only ASCII punctuation, so Cyrillic text folds and survives:
`normalize("Hello, мир! Привет, world!") = ["hello","мир","привет","world"]`. -/
theorem normalize_unicode_example :
    processText (strLit "Hello, мир! Привет, world!") =
      [strLit "hello", strLit "мир", strLit "привет", strLit "world"] := by
  decide

/-- Every per-file exception is caught inside the loop, so
`get_all_words` always terminates normally, with the table obtained by
skipping the unreadable files. -/
theorem getAllWordsE_ok (fs : Str → Option Str) (names : List Str) (wc : Table) :
    getAllWordsE fs names wc = .ok (getAllWords fs names wc) := by
  induction names generalizing wc with
  | nil => rfl
  | cons name rest ih =>
    cases h : fs name with
    | none => simp [getAllWordsE, getAllWords, readStep, h, ih]
    | some text => simp [getAllWordsE, getAllWords, readStep, h, ih]

/-- Claim C4: a finder over one readable file `a` and one failing path
`b` raises no exception (the run returns `.ok`), its table is exactly
the aggregation of the readable file, and the failed file contributes no
entry at all. -/
theorem file_error_isolation (fs : Str → Option Str) (a b content : Str)
    (ha : fs a = some content) (hb : fs b = none) :
    getAllWordsE fs [a, b] [] =
      .ok (addWords [] a (processText content)) ∧
    getAllWords fs [a, b] [] = addWords [] a (processText content) ∧
    containsKey (getAllWords fs [a, b] []) b = false := by
  have hab : a ≠ b := by
    intro h
    rw [h, hb] at ha
    cases ha
  have htab : getAllWords fs [a, b] [] = addWords [] a (processText content) := by
    simp [getAllWords, ha, hb]
  refine ⟨?_, htab, ?_⟩
  · rw [getAllWordsE_ok, htab]
  · rw [htab]
    simp [addWords, ensureEntry, updateEntry, containsKey, containsKeyC]
    intro h
    exact hab h

/-- Concrete instance of claim C4: one readable file, one missing file. -/
theorem file_error_isolation_witness :
    getAllWords
        (fun s => if s = strLit "a.txt" then some (strLit "hello world hello") else none)
        [strLit "a.txt", strLit "missing.txt"] [] =
      addWords [] (strLit "a.txt") (processText (strLit "hello world hello")) ∧
    containsKey
        (getAllWords
          (fun s => if s = strLit "a.txt" then some (strLit "hello world hello") else none)
          [strLit "a.txt", strLit "missing.txt"] [])
        (strLit "missing.txt") = false := by
  have h := file_error_isolation
    (fun s => if s = strLit "a.txt" then some (strLit "hello world hello") else none)
    (strLit "a.txt") (strLit "missing.txt") (strLit "hello world hello")
    (by decide) (by decide)
  exact ⟨h.2.1, h.2.2⟩

/-- Membership in the result of the `count_word_occurrences` loop:
exactly the sources holding a strictly positive count of `w`. -/
theorem mem_countLoop (t : Table) (w s : Str) (n : Nat) :
    (s, n) ∈ countLoop t w ↔ ∃ c, (s, c) ∈ t ∧ counterGet c w = n ∧ 0 < n := by
  induction t with
  | nil => simp [countLoop]
  | cons p rest ih =>
    obtain ⟨s₀, c₀⟩ := p
    simp only [countLoop]
    by_cases h : 0 < counterGet c₀ w
    · rw [if_pos h]
      simp only [List.mem_cons, ih, Prod.mk.injEq]
      constructor
      · rintro (⟨rfl, rfl⟩ | ⟨c, hc, hg, hp⟩)
        · exact ⟨c₀, Or.inl ⟨rfl, rfl⟩, rfl, h⟩
        · exact ⟨c, Or.inr hc, hg, hp⟩
      · rintro ⟨c, (hc | hc), hg, hp⟩
        · obtain ⟨rfl, rfl⟩ := Prod.mk.injEq .. ▸ hc
          exact Or.inl ⟨rfl, hg.symm⟩
        · exact Or.inr ⟨c, hc, hg, hp⟩
    · rw [if_neg h]
      simp only [List.mem_cons, ih, Prod.mk.injEq]
      constructor
      · rintro ⟨c, hc, hg, hp⟩
        exact ⟨c, Or.inr hc, hg, hp⟩
      · rintro ⟨c, (hc | hc), hg, hp⟩
        · obtain ⟨rfl, rfl⟩ := Prod.mk.injEq .. ▸ hc
          exact absurd (hg ▸ hp) h
        · exact ⟨c, hc, hg, hp⟩

/-- If every source counts `w` zero times, the loop returns nothing. -/
theorem countLoop_eq_nil (t : Table) (w : Str)
    (h : ∀ s c, (s, c) ∈ t → counterGet c w = 0) : countLoop t w = [] := by
  induction t with
  | nil => rfl
  | cons p rest ih =>
    obtain ⟨s₀, c₀⟩ := p
    have h₀ : counterGet c₀ w = 0 := h s₀ c₀ (List.mem_cons_self _ _)
    simp only [countLoop, h₀]
    exact ih (fun s c hc => h s c (List.mem_cons_of_mem _ hc))

/-- A counter none of whose keys is `w` counts `w` zero times. -/
theorem counterGet_eq_zero (c : Counter) (w : Str)
    (h : ∀ p ∈ c, p.1 ≠ w) : counterGet c w = 0 := by
  induction c with
  | nil => rfl
  | cons p rest ih =>
    obtain ⟨v, k⟩ := p
    have hv : v ≠ w := h (v, k) (List.mem_cons_self _ _)
    simp only [counterGet, if_neg hv]
    exact ih (fun q hq => h q (List.mem_cons_of_mem _ hq))

/-- Claim C7: `count_word_occurrences` lowercases the query and returns
exactly the sources whose count of the lowercased word is strictly
positive; a word absent from every source gives the empty mapping, and
when the table stores no empty word (true of all normalized tables), the
empty-string query gives the empty mapping. -/
theorem count_word_occurrences_spec (t : Table) (w : Str) :
    (∀ s n, (s, n) ∈ countWordOccurrences t w ↔
      ∃ c, (s, c) ∈ t ∧ counterGet c (pyLower w) = n ∧ 0 < n) ∧
    ((∀ s c, (s, c) ∈ t → counterGet c (pyLower w) = 0) →
      countWordOccurrences t w = []) ∧
    ((∀ s c p, (s, c) ∈ t → p ∈ c → p.1 ≠ ([] : Str)) →
      countWordOccurrences t [] = []) := by
  refine ⟨?_, ?_, ?_⟩
  · intro s n
    exact mem_countLoop t (pyLower w) s n
  · intro h
    exact countLoop_eq_nil t (pyLower w) h
  · intro h
    unfold countWordOccurrences
    have hl : pyLower [] = ([] : Str) := rfl
    rw [hl]
    exact countLoop_eq_nil t [] (fun s c hc =>
      counterGet_eq_zero c [] (fun p hp => h s c p hc hp))

/-- Concrete instance of claim C7: the query is lowercased and a
positive source is reported. -/
theorem count_word_occurrences_spec_witness :
    (strLit "file1.txt", 2) ∈
      countWordOccurrences [(strLit "file1.txt", [(strLit "hello", 2)])]
        (strLit "HELLO") := by
  exact ((count_word_occurrences_spec
      [(strLit "file1.txt", [(strLit "hello", 2)])] (strLit "HELLO")).1
      (strLit "file1.txt") 2).mpr
    ⟨[(strLit "hello", 2)], by decide, by decide, by decide⟩

/-- Reading a key after a `dict.__setitem__`: the set key reads the new
value, every other key is untouched. -/
theorem counterGet_dictSet (c : Counter) (v : Str) (n : Nat) (w : Str) :
    counterGet (dictSet c v n) w = if w = v then n else counterGet c w := by
  induction c with
  | nil =>
    simp only [dictSet, counterGet]
    by_cases hv : v = w
    · subst hv
      simp
    · rw [if_neg hv, if_neg (fun h => hv h.symm)]
  | cons p rest ih =>
    obtain ⟨a, k⟩ := p
    simp only [dictSet]
    by_cases hav : a = v
    · subst hav
      rw [if_pos rfl, counterGet, counterGet]
      by_cases haw : a = w
      · rw [if_pos haw, if_pos haw.symm]
      · rw [if_neg haw, if_neg haw, if_neg (fun h : w = a => haw h.symm)]
    · rw [if_neg hav, counterGet, counterGet]
      by_cases haw : a = w
      · rw [if_pos haw, if_pos haw, if_neg (fun h => hav (haw.trans h))]
      · rw [if_neg haw, if_neg haw, ih]

/-- One `Counter.update` step bumps exactly the updated key by one. -/
theorem counterGet_updateOne (c : Counter) (v w : Str) :
    counterGet (counterUpdateOne c v) w =
      if w = v then counterGet c w + 1 else counterGet c w := by
  unfold counterUpdateOne
  rw [counterGet_dictSet]
  by_cases hwv : w = v
  · subst hwv
    rw [if_pos rfl]
  · rw [if_neg hwv, if_neg hwv]

/-- Every entry of a `dict.__setitem__` result is the new entry or one
of the old ones. -/
theorem mem_dictSet (c : Counter) (v : Str) (n : Nat) (p : Str × Nat)
    (h : p ∈ dictSet c v n) : p = (v, n) ∨ p ∈ c := by
  induction c with
  | nil =>
    simp only [dictSet] at h
    rcases List.mem_singleton.mp h with rfl
    exact Or.inl rfl
  | cons q rest ih =>
    obtain ⟨a, k⟩ := q
    simp only [dictSet] at h
    by_cases hav : a = v
    · rw [if_pos hav] at h
      rcases List.mem_cons.mp h with rfl | hmem
      · exact Or.inl (by rw [hav])
      · exact Or.inr (List.mem_cons_of_mem _ hmem)
    · rw [if_neg hav] at h
      rcases List.mem_cons.mp h with rfl | hmem
      · exact Or.inr (List.mem_cons_self _ _)
      · rcases ih hmem with h' | h'
        · exact Or.inl h'
        · exact Or.inr (List.mem_cons_of_mem _ h')

/-- `Counter.update` never decreases any count. -/
theorem counterGet_counterAdd_mono (ws : List Str) (c : Counter) (w : Str) :
    counterGet c w ≤ counterGet (counterAdd c ws) w := by
  induction ws generalizing c with
  | nil => exact Nat.le_refl _
  | cons v rest ih =>
    have hstep : counterGet c w ≤ counterGet (counterUpdateOne c v) w := by
      rw [counterGet_updateOne]
      by_cases h : w = v
      · rw [if_pos h]
        exact Nat.le_succ _
      · rw [if_neg h]
    have hfold : counterAdd c (v :: rest) = counterAdd (counterUpdateOne c v) rest := rfl
    rw [hfold]
    exact Nat.le_trans hstep (ih (counterUpdateOne c v))

/-- Appending a fresh empty source does not change any `tableGet` read. -/
theorem tableGet_append_empty (t : Table) (s s' : Str) :
    tableGet (t ++ [(s, [])]) s' = tableGet t s' := by
  induction t with
  | nil =>
    show (if s = s' then ([] : Counter) else tableGet [] s') = tableGet [] s'
    split
    · rfl
    · rfl
  | cons p rest ih =>
    obtain ⟨a, c⟩ := p
    show (if a = s' then c else tableGet (rest ++ [(s, [])]) s') =
      if a = s' then c else tableGet rest s'
    rw [ih]

/-- `ensureEntry` changes no `tableGet` read (the added counter is empty,
which is also the default of a missing source). -/
theorem tableGet_ensureEntry (t : Table) (s s' : Str) :
    tableGet (ensureEntry t s) s' = tableGet t s' := by
  unfold ensureEntry
  split
  · rfl
  · exact tableGet_append_empty t s s'

/-- After `ensureEntry`, the source is present. -/
theorem containsKey_ensureEntry_self (t : Table) (s : Str) :
    containsKey (ensureEntry t s) s = true := by
  unfold ensureEntry
  by_cases h : containsKey t s
  · rw [if_pos h]
    exact h
  · rw [if_neg h]
    simp [containsKey]

/-- Reading the table after `updateEntry`: only a present updated source
changes, by `counterAdd`. -/
theorem tableGet_updateEntry (t : Table) (s : Str) (ws : List Str) (s' : Str) :
    tableGet (updateEntry t s ws) s' =
      if s' = s ∧ containsKey t s' = true then counterAdd (tableGet t s') ws
      else tableGet t s' := by
  induction t with
  | nil => simp [updateEntry, tableGet, containsKey]
  | cons p rest ih =>
    obtain ⟨a, c⟩ := p
    show tableGet ((if a = s then (a, counterAdd c ws) else (a, c)) :: updateEntry rest s ws) s' = _
    by_cases has : a = s
    · rw [if_pos has]
      have hL : tableGet ((a, counterAdd c ws) :: updateEntry rest s ws) s' =
          if a = s' then counterAdd c ws else tableGet (updateEntry rest s ws) s' := rfl
      rw [hL]
      by_cases has' : a = s'
      · rw [if_pos has']
        have hss : s' = s := has'.symm.trans has
        have hck : containsKey ((a, c) :: rest) s' = true := by
          simp [containsKey, has']
        rw [if_pos ⟨hss, hck⟩]
        have hR : tableGet ((a, c) :: rest) s' = c := by
          show (if a = s' then c else tableGet rest s') = c
          rw [if_pos has']
        rw [hR]
      · rw [if_neg has', ih]
        have hss : ¬ s' = s := fun h => has' (has.trans h.symm)
        rw [if_neg (fun h => hss h.1), if_neg (fun h => hss h.1)]
        have hR : tableGet ((a, c) :: rest) s' = tableGet rest s' := by
          show (if a = s' then c else tableGet rest s') = tableGet rest s'
          rw [if_neg has']
        rw [hR]
    · rw [if_neg has]
      have hL : tableGet ((a, c) :: updateEntry rest s ws) s' =
          if a = s' then c else tableGet (updateEntry rest s ws) s' := rfl
      rw [hL]
      by_cases has' : a = s'
      · rw [if_pos has']
        have hss : ¬ s' = s := fun h => has (has'.trans h)
        rw [if_neg (fun h => hss h.1)]
        have hR : tableGet ((a, c) :: rest) s' = c := by
          show (if a = s' then c else tableGet rest s') = c
          rw [if_pos has']
        rw [hR]
      · rw [if_neg has', ih]
        have hck : containsKey ((a, c) :: rest) s' = containsKey rest s' := by
          simp [containsKey, has']
        have hR : tableGet ((a, c) :: rest) s' = tableGet rest s' := by
          show (if a = s' then c else tableGet rest s') = tableGet rest s'
          rw [if_neg has']
        rw [hck, hR]

/-- Reading the table after `add_words`: the target source's counter is
updated by `counterAdd`, every other source is untouched. -/
theorem tableGet_addWords (t : Table) (s : Str) (ws : List Str) (s' : Str) :
    tableGet (addWords t s ws) s' =
      if s' = s then counterAdd (tableGet t s') ws else tableGet t s' := by
  unfold addWords
  rw [tableGet_updateEntry, tableGet_ensureEntry]
  by_cases h : s' = s
  · subst h
    rw [if_pos ⟨rfl, containsKey_ensureEntry_self t s'⟩, if_pos rfl]
  · rw [if_neg (fun hc => h hc.1), if_neg h]

/-- `Counter.update` keeps every stored count at least 1. -/
theorem counterAdd_ge_one (ws : List Str) (c : Counter)
    (h : ∀ p ∈ c, 1 ≤ p.2) : ∀ p ∈ counterAdd c ws, 1 ≤ p.2 := by
  induction ws generalizing c with
  | nil => exact h
  | cons v rest ih =>
    have hone : ∀ p ∈ counterUpdateOne c v, 1 ≤ p.2 := by
      intro p hp
      rcases mem_dictSet c v (counterGet c v + 1) p hp with rfl | hpc
      · exact Nat.succ_le_succ (Nat.zero_le _)
      · exact h p hpc
    exact ih (counterUpdateOne c v) hone

/-- `add_words` keeps every stored count at least 1. -/
theorem addWords_ge_one (t : Table) (s : Str) (ws : List Str)
    (h : ∀ s' c, (s', c) ∈ t → ∀ p ∈ c, 1 ≤ p.2) :
    ∀ s' c, (s', c) ∈ addWords t s ws → ∀ p ∈ c, 1 ≤ p.2 := by
  intro s' c hc
  unfold addWords updateEntry at hc
  rcases List.mem_map.mp hc with ⟨q, hq, hfq⟩
  have hq' : (q.1, q.2) ∈ t ∨ q = (s, ([] : Counter)) := by
    unfold ensureEntry at hq
    by_cases hcont : containsKey t s
    · rw [if_pos hcont] at hq
      exact Or.inl hq
    · rw [if_neg hcont] at hq
      rcases List.mem_append.mp hq with h1 | h1
      · exact Or.inl h1
      · exact Or.inr (List.mem_singleton.mp h1)
  have hbase : ∀ p ∈ q.2, 1 ≤ p.2 := by
    rcases hq' with hin | rfl
    · exact h q.1 q.2 hin
    · intro p hp
      cases hp
  by_cases hqs : q.1 = s
  · rw [if_pos hqs] at hfq
    have hc' : c = counterAdd q.2 ws := congrArg Prod.snd hfq.symm
    rw [hc']
    exact counterAdd_ge_one ws q.2 hbase
  · rw [if_neg hqs] at hfq
    have hc' : c = q.2 := congrArg Prod.snd hfq.symm
    rw [hc']
    exact hbase

/-- Every table reachable by `add_words` calls stores only counts ≥ 1. -/
theorem reachable_ge_one (t : Table) (h : Reachable t) :
    ∀ s c, (s, c) ∈ t → ∀ p ∈ c, 1 ≤ p.2 := by
  induction h with
  | empty =>
    intro s c hc
    cases hc
  | step t s ws _ ih => exact addWords_ge_one t s ws ih

/-- Claim C9: `add_words` never decreases a count; repeated additions
increment rather than overwrite (the concrete scenario of the spec);
and every count stored in a reachable table is at least 1. -/
theorem add_words_monotone_spec :
    (∀ t s ws s' w, tableCount t s' w ≤ tableCount (addWords t s ws) s' w) ∧
    (tableCount
        (addWords (addWords [] (strLit "s")
          [strLit "hello", strLit "world", strLit "hello"]) (strLit "s")
          [strLit "hello"]) (strLit "s") (strLit "hello") = 3 ∧
     tableCount
        (addWords (addWords [] (strLit "s")
          [strLit "hello", strLit "world", strLit "hello"]) (strLit "s")
          [strLit "hello"]) (strLit "s") (strLit "world") = 1) ∧
    (∀ t, Reachable t → ∀ s c, (s, c) ∈ t → ∀ p ∈ c, 1 ≤ p.2) := by
  refine ⟨?_, ⟨by decide, by decide⟩, reachable_ge_one⟩
  intro t s ws s' w
  unfold tableCount
  rw [tableGet_addWords]
  by_cases h : s' = s
  · rw [if_pos h]
    exact counterGet_counterAdd_mono ws (tableGet t s') w
  · rw [if_neg h]

/-- Concrete instance of claim C9: monotonicity and the ≥ 1 invariant at
a one-word table. -/
theorem add_words_monotone_spec_witness :
    tableCount [] (strLit "s") (strLit "hello") ≤
      tableCount (addWords [] (strLit "s") [strLit "hello"])
        (strLit "s") (strLit "hello") ∧
    1 ≤ (strLit "hello", 1).2 := by
  refine ⟨add_words_monotone_spec.1 [] (strLit "s") [strLit "hello"]
    (strLit "s") (strLit "hello"), ?_⟩
  exact add_words_monotone_spec.2.2 (addWords [] (strLit "s") [strLit "hello"])
    (Reachable.step [] (strLit "s") [strLit "hello"] Reachable.empty)
    (strLit "s") [(strLit "hello", 1)] (by decide) (strLit "hello", 1) (by decide)

/-- A `counter[word]` read returns the counter unchanged and the same
count as the pure read (`Counter.__missing__` stores nothing). -/
theorem counterGetSt_spec (c : Counter) (w : Str) :
    counterGetSt c w = (counterGet c w, c) := by
  induction c with
  | nil => rfl
  | cons p rest ih =>
    obtain ⟨v, n⟩ := p
    simp only [counterGetSt, counterGet, ih]
    split
    · rfl
    · rfl

/-- The `count_word_occurrences` loop returns the table unchanged and
the same result as the pure loop. -/
theorem countLoopSt_spec (t : Table) (w : Str) :
    countLoopSt t w = (countLoop t w, t) := by
  induction t with
  | nil => rfl
  | cons p rest ih =>
    obtain ⟨s, c⟩ := p
    simp only [countLoopSt, countLoop, counterGetSt_spec, ih]

/-- Key iteration returns the counter unchanged along with its keys. -/
theorem counterKeysSt_spec (c : Counter) :
    counterKeysSt c = (c.map Prod.fst, c) := by
  induction c with
  | nil => rfl
  | cons p rest ih =>
    obtain ⟨v, n⟩ := p
    simp only [counterKeysSt, List.map_cons, ih]

/-- Claim C10: the query operations are read-only — both
`count_word_occurrences` and `filter_words`, run with the table state
threaded through every dictionary access, return the table exactly as it
was (no zero-count entry is ever inserted) and the same results as the
pure versions. -/
theorem queries_read_only (t : Table) (w : Str) (minLength : Nat)
    (startsWith : Option Str) :
    (countWordOccurrencesSt t w).2 = t ∧
    (countWordOccurrencesSt t w).1 = countWordOccurrences t w ∧
    (filterWordsSt t minLength startsWith).2 = t ∧
    (filterWordsSt t minLength startsWith).1 = filterWords t minLength startsWith := by
  refine ⟨?_, ?_, ?_, ?_⟩
  · unfold countWordOccurrencesSt
    rw [countLoopSt_spec]
  · unfold countWordOccurrencesSt countWordOccurrences
    rw [countLoopSt_spec]
  · induction t with
    | nil => rfl
    | cons p rest ih =>
      obtain ⟨s, c⟩ := p
      simp only [filterWordsSt, counterKeysSt_spec, ih]
  · induction t with
    | nil => rfl
    | cons p rest ih =>
      obtain ⟨s, c⟩ := p
      simp only [filterWordsSt, filterWords, counterKeysSt_spec, List.map_cons, ih]

/-- Lexicographic string order is transitive. -/
theorem strLe_trans : ∀ (a b c : Str), strLe a b = true → strLe b c = true →
    strLe a c = true
  | [], _, _, _, _ => rfl
  | x :: xs, [], c, h1, _ => by cases h1
  | x :: xs, y :: ys, [], _, h2 => by cases h2
  | x :: xs, y :: ys, z :: zs, h1, h2 => by
    simp only [strLe] at h1 h2 ⊢
    by_cases hxy : x < y <;> by_cases hyz : y < z
    · rw [if_pos (Nat.lt_trans hxy hyz)]
    · rw [if_neg hyz] at h2
      by_cases hzy : z < y
      · rw [if_pos hzy] at h2
        cases h2
      · have hyz' : y = z := by omega
        rw [if_pos (hyz' ▸ hxy)]
    · rw [if_neg hxy] at h1
      by_cases hyx : y < x
      · rw [if_pos hyx] at h1
        cases h1
      · have hxy' : x = y := by omega
        rw [if_pos (hxy' ▸ hyz)]
    · rw [if_neg hxy] at h1
      rw [if_neg hyz] at h2
      by_cases hyx : y < x
      · rw [if_pos hyx] at h1
        cases h1
      · by_cases hzy : z < y
        · rw [if_pos hzy] at h2
          cases h2
        · rw [if_neg hyx] at h1
          rw [if_neg hzy] at h2
          have hxz : ¬ x < z := by omega
          have hzx : ¬ z < x := by omega
          rw [if_neg hxz, if_neg hzx]
          exact strLe_trans xs ys zs h1 h2

/-- Lexicographic string order is total. -/
theorem strLe_total : ∀ (a b : Str), (strLe a b || strLe b a) = true
  | [], _ => by simp [strLe]
  | x :: xs, [] => by simp [strLe]
  | x :: xs, y :: ys => by
    by_cases hxy : x < y
    · simp [strLe, hxy]
    · by_cases hyx : y < x
      · simp [strLe, hxy, hyx]
      · simp only [strLe, if_neg hxy, if_neg hyx]
        exact strLe_total xs ys

/-- A stable sort leaves the subsequence of any fixed key untouched:
filtering the merge-sorted list by a predicate whose holders are
pairwise tied gives the same list as filtering the input. -/
theorem mergeSort_filter_stable {α : Type} (le : α → α → Bool) (l : List α)
    (p : α → Bool)
    (htrans : ∀ (a b c : α), le a b → le b c → le a c)
    (htotal : ∀ (a b : α), le a b || le b a)
    (hp : ∀ a b, p a = true → p b = true → le a b = true) :
    (l.mergeSort le).filter p = l.filter p := by
  have hpair : (l.filter p).Pairwise (fun a b => le a b = true) := by
    apply List.pairwise_of_forall_mem_list
    intro a ha b hb
    exact hp a b (List.mem_filter.mp ha).2 (List.mem_filter.mp hb).2
  have hsub : List.Sublist (l.filter p) l := List.filter_sublist l
  have hfil : List.Sublist (l.filter p) (l.mergeSort le) :=
    List.sublist_mergeSort htrans htotal hpair hsub
  have hfil2 : List.Sublist ((l.filter p).filter p) ((l.mergeSort le).filter p) :=
    hfil.filter p
  have hself : (l.filter p).filter p = l.filter p := by
    apply List.filter_eq_self.mpr
    intro a ha
    exact (List.mem_filter.mp ha).2
  rw [hself] at hfil2
  have hlen : ((l.mergeSort le).filter p).length = (l.filter p).length :=
    ((List.mergeSort_perm l le).filter p).length_eq
  exact (hfil2.eq_of_length hlen.symm).symm

/-- Claim C8: `sort_results` with `'frequency'` permutes the sources
into descending order of total word count, stably (every tie class keeps
its input order); with `'alphabetical'` into ascending source order; any
other value returns the table unchanged; and no inner counter is ever
altered (the output holds exactly the input's source/counter pairs). -/
theorem sort_results_spec (t : Table) (sortBy : Str) :
    (sortResults t (strLit "frequency")).Perm t ∧
    (sortResults t (strLit "frequency")).Pairwise
      (fun a b => sumCounts b.2 ≤ sumCounts a.2) ∧
    (∀ n : Nat, (sortResults t (strLit "frequency")).filter
        (fun x => decide (sumCounts x.2 = n)) =
      t.filter (fun x => decide (sumCounts x.2 = n))) ∧
    (sortResults t (strLit "alphabetical")).Perm t ∧
    (sortResults t (strLit "alphabetical")).Pairwise
      (fun a b => strLe a.1 b.1 = true) ∧
    (sortBy ≠ strLit "frequency" → sortBy ≠ strLit "alphabetical" →
      sortResults t sortBy = t) ∧
    (∀ s c, (s, c) ∈ sortResults t sortBy ↔ (s, c) ∈ t) := by
  have hfreq : sortResults t (strLit "frequency") =
      t.mergeSort (fun a b => decide (sumCounts b.2 ≤ sumCounts a.2)) := by
    unfold sortResults
    rw [if_pos rfl]
  have halpha : sortResults t (strLit "alphabetical") =
      t.mergeSort (fun a b => strLe a.1 b.1) := by
    unfold sortResults
    rw [if_neg (by decide), if_pos rfl]
  have ftrans : ∀ (a b c : Str × Counter),
      decide (sumCounts b.2 ≤ sumCounts a.2) = true →
      decide (sumCounts c.2 ≤ sumCounts b.2) = true →
      decide (sumCounts c.2 ≤ sumCounts a.2) = true := by
    intro a b c h1 h2
    simp only [decide_eq_true_eq] at h1 h2 ⊢
    omega
  have ftotal : ∀ (a b : Str × Counter),
      (decide (sumCounts b.2 ≤ sumCounts a.2) ||
       decide (sumCounts a.2 ≤ sumCounts b.2)) = true := by
    intro a b
    simp only [Bool.or_eq_true, decide_eq_true_eq]
    omega
  have atrans : ∀ (a b c : Str × Counter),
      strLe a.1 b.1 = true → strLe b.1 c.1 = true → strLe a.1 c.1 = true :=
    fun a b c h1 h2 => strLe_trans a.1 b.1 c.1 h1 h2
  have atotal : ∀ (a b : Str × Counter),
      (strLe a.1 b.1 || strLe b.1 a.1) = true :=
    fun a b => strLe_total a.1 b.1
  refine ⟨?_, ?_, ?_, ?_, ?_, ?_, ?_⟩
  · rw [hfreq]
    exact List.mergeSort_perm t _
  · rw [hfreq]
    exact (List.sorted_mergeSort ftrans ftotal t).imp
      (fun h => by simpa using h)
  · intro n
    rw [hfreq]
    apply mergeSort_filter_stable _ t _ ftrans ftotal
    intro a b ha hb
    simp only [decide_eq_true_eq] at ha hb ⊢
    omega
  · rw [halpha]
    exact List.mergeSort_perm t _
  · rw [halpha]
    exact List.sorted_mergeSort atrans atotal t
  · intro h1 h2
    unfold sortResults
    rw [if_neg h1, if_neg h2]
  · intro s c
    unfold sortResults
    by_cases h1 : sortBy = strLit "frequency"
    · rw [if_pos h1]
      exact List.mem_mergeSort
    · rw [if_neg h1]
      by_cases h2 : sortBy = strLit "alphabetical"
      · rw [if_pos h2]
        exact List.mem_mergeSort
      · rw [if_neg h2]

/-- Concrete instance of claim C8: an unknown `sort_by` value returns
the table unchanged. -/
theorem sort_results_spec_witness :
    sortResults [(strLit "a", [(strLit "x", 1)])] (strLit "other") =
      [(strLit "a", [(strLit "x", 1)])] :=
  (sort_results_spec [(strLit "a", [(strLit "x", 1)])]
    (strLit "other")).2.2.2.2.2.1 (by decide) (by decide)

/-- Lowercasing a code point is idempotent. -/
theorem lowerCode_idem (n : Nat) : lowerCode (lowerCode n) = lowerCode n := by
  unfold lowerCode
  split_ifs <;> omega

/-- Every character of every token produced by `splitAux` is a
non-whitespace character satisfying any property `P` holding of the
non-whitespace input characters and of the accumulator characters. -/
theorem splitAux_chars (P : Nat → Prop) :
    ∀ (cs acc : Str),
      (∀ n, n ∈ cs → isSpaceCode n = false → P n) →
      (∀ n, n ∈ acc → P n ∧ isSpaceCode n = false) →
      ∀ w, w ∈ splitAux cs acc → ∀ n, n ∈ w → P n ∧ isSpaceCode n = false := by
  intro cs
  induction cs with
  | nil =>
    intro acc hcs hacc w hw n hn
    simp only [splitAux] at hw
    cases acc with
    | nil => simp at hw
    | cons a rest =>
      simp only [List.isEmpty_cons, Bool.false_eq_true, if_false,
        List.mem_singleton] at hw
      subst hw
      exact hacc n (List.mem_reverse.mp hn)
  | cons c cs ih =>
    intro acc hcs hacc w hw n hn
    simp only [splitAux] at hw
    by_cases hs : isSpaceCode c = true
    · rw [if_pos hs] at hw
      have hcs' : ∀ m, m ∈ cs → isSpaceCode m = false → P m :=
        fun m hm hsp => hcs m (List.mem_cons_of_mem _ hm) hsp
      cases acc with
      | nil =>
        simp only [List.isEmpty_nil, if_true] at hw
        exact ih [] hcs' (fun m hm => absurd hm (List.not_mem_nil m)) w hw n hn
      | cons a rest =>
        simp only [List.isEmpty_cons, Bool.false_eq_true, if_false,
          List.mem_cons] at hw
        rcases hw with rfl | hw
        · exact hacc n (List.mem_reverse.mp hn)
        · exact ih [] hcs' (fun m hm => absurd hm (List.not_mem_nil m)) w hw n hn
    · rw [if_neg hs] at hw
      have hcfalse : isSpaceCode c = false := by
        cases h : isSpaceCode c
        · rfl
        · exact absurd h hs
      refine ih (c :: acc) ?_ ?_ w hw n hn
      · exact fun m hm hsp => hcs m (List.mem_cons_of_mem _ hm) hsp
      · intro m hm
        rcases List.mem_cons.mp hm with rfl | hm'
        · exact ⟨hcs m (List.mem_cons_self _ _) hcfalse, hcfalse⟩
        · exact hacc m hm'

/-- `splitAux` never emits an empty token. -/
theorem splitAux_ne_nil :
    ∀ (cs acc : Str), ∀ w ∈ splitAux cs acc, w ≠ [] := by
  intro cs
  induction cs with
  | nil =>
    intro acc w hw
    simp only [splitAux] at hw
    cases acc with
    | nil => simp at hw
    | cons a rest =>
      simp only [List.isEmpty_cons, Bool.false_eq_true, if_false,
        List.mem_singleton] at hw
      subst hw
      simp
  | cons c cs ih =>
    intro acc w hw
    simp only [splitAux] at hw
    by_cases hs : isSpaceCode c = true
    · rw [if_pos hs] at hw
      cases acc with
      | nil =>
        simp only [List.isEmpty_nil, if_true] at hw
        exact ih [] w hw
      | cons a rest =>
        simp only [List.isEmpty_cons, Bool.false_eq_true, if_false,
          List.mem_cons] at hw
        rcases hw with rfl | hw
        · simp
        · exact ih [] w hw
    · rw [if_neg hs] at hw
      exact ih (c :: acc) w hw

/-- Feeding a run of non-whitespace characters into `splitAux` just
moves it (reversed) onto the accumulator. -/
theorem splitAux_append_nonspace :
    ∀ (w cs acc : Str), (∀ n ∈ w, isSpaceCode n = false) →
      splitAux (w ++ cs) acc = splitAux cs (w.reverse ++ acc) := by
  intro w
  induction w with
  | nil =>
    intro cs acc _
    simp
  | cons c w' ih =>
    intro cs acc h
    have hc : isSpaceCode c = false := h c (List.mem_cons_self _ _)
    show splitAux (c :: (w' ++ cs)) acc = _
    simp only [splitAux]
    rw [if_neg (by rw [hc]; exact Bool.false_ne_true)]
    rw [ih cs (c :: acc) (fun n hn => h n (List.mem_cons_of_mem _ hn))]
    rw [List.reverse_cons, List.append_assoc]
    rfl

/-- Splitting the space-join of nonempty whitespace-free words returns
exactly those words. -/
theorem splitAux_joinSpace :
    ∀ ws : List Str, (∀ w ∈ ws, w ≠ [] ∧ ∀ n ∈ w, isSpaceCode n = false) →
      splitAux (joinSpace ws) [] = ws := by
  intro ws
  induction ws with
  | nil => intro _; rfl
  | cons w ws' ih =>
    intro h
    obtain ⟨hwne, hwsp⟩ := h w (List.mem_cons_self _ _)
    cases ws' with
    | nil =>
      show splitAux (joinSpace [w]) [] = [w]
      have hj : joinSpace [w] = w := rfl
      rw [hj]
      have := splitAux_append_nonspace w [] [] hwsp
      rw [List.append_nil] at this
      rw [this]
      simp only [splitAux, List.append_nil]
      have hrev : w.reverse.isEmpty = false := by
        cases hw : w.reverse with
        | nil => exact absurd (List.reverse_eq_nil_iff.mp hw) hwne
        | cons a rest => rfl
      rw [if_neg (by rw [hrev]; exact Bool.false_ne_true)]
      rw [List.reverse_reverse]
    | cons w2 rest =>
      have hj : joinSpace (w :: w2 :: rest) = w ++ 32 :: joinSpace (w2 :: rest) := rfl
      rw [hj]
      rw [splitAux_append_nonspace w (32 :: joinSpace (w2 :: rest)) [] hwsp]
      rw [List.append_nil]
      simp only [splitAux]
      rw [if_pos (show isSpaceCode 32 = true from rfl)]
      have hrev : w.reverse.isEmpty = false := by
        cases hw : w.reverse with
        | nil => exact absurd (List.reverse_eq_nil_iff.mp hw) hwne
        | cons a r => rfl
      rw [if_neg (by rw [hrev]; exact Bool.false_ne_true)]
      rw [List.reverse_reverse]
      rw [ih (fun v hv => h v (List.mem_cons_of_mem _ hv))]

/-- A map whose function fixes every member is the identity. -/
theorem map_id_of_fixed (f : Nat → Nat) :
    ∀ l : Str, (∀ n ∈ l, f n = n) → l.map f = l := by
  intro l
  induction l with
  | nil => intro _; rfl
  | cons a l' ih =>
    intro h
    simp only [List.map_cons]
    rw [h a (List.mem_cons_self _ _), ih (fun n hn => h n (List.mem_cons_of_mem _ hn))]

/-- A filter all of whose members pass is the identity. -/
theorem filter_all_of_true (p : Nat → Bool) :
    ∀ l : Str, (∀ n ∈ l, p n = true) → l.filter p = l := by
  intro l
  induction l with
  | nil => intro _; rfl
  | cons a l' ih =>
    intro h
    simp only [List.filter_cons]
    rw [h a (List.mem_cons_self _ _)]
    simp only [if_true]
    rw [ih (fun n hn => h n (List.mem_cons_of_mem _ hn))]

/-- Every character of a space-join is the space or from some word. -/
theorem mem_joinSpace :
    ∀ (ws : List Str) (n : Nat), n ∈ joinSpace ws →
      n = 32 ∨ ∃ w, w ∈ ws ∧ n ∈ w := by
  intro ws
  induction ws with
  | nil =>
    intro n hn
    cases hn
  | cons w ws' ih =>
    intro n hn
    cases ws' with
    | nil =>
      exact Or.inr ⟨w, List.mem_cons_self _ _, hn⟩
    | cons w2 rest =>
      have hj : joinSpace (w :: w2 :: rest) = w ++ 32 :: joinSpace (w2 :: rest) := rfl
      rw [hj] at hn
      rcases List.mem_append.mp hn with hw | hw
      · exact Or.inr ⟨w, List.mem_cons_self _ _, hw⟩
      · rcases List.mem_cons.mp hw with rfl | hw'
        · exact Or.inl rfl
        · rcases ih n hw' with h32 | ⟨v, hv, hnv⟩
          · exact Or.inl h32
          · exact Or.inr ⟨v, List.mem_cons_of_mem _ hv, hnv⟩

/-- Every character of every word of `processText` is lower-fixed, not a
deleted punctuation character, and not whitespace. -/
theorem processText_chars (t : Str) :
    ∀ w ∈ processText t, ∀ n ∈ w,
      (lowerCode n = n ∧ deleteCodes.contains n = false) ∧
        isSpaceCode n = false := by
  intro w hw n hn
  refine splitAux_chars
    (fun n => lowerCode n = n ∧ deleteCodes.contains n = false)
    (translateDel (pyLower t)) [] ?_ ?_ w hw n hn
  · intro m hm _
    have hmem := List.mem_filter.mp hm
    constructor
    · rcases List.mem_map.mp hmem.1 with ⟨k, _, rfl⟩
      exact lowerCode_idem k
    · have := hmem.2
      simpa using this
  · intro m hm
    cases hm

/-- Claim C5: normalization is idempotent — joining the normalized words
with single spaces and normalizing again returns the same word list —
and `normalize("hello world") = ["hello","world"]` re-normalizes to
itself. -/
theorem normalize_idempotent :
    (∀ t : Str, processText (joinSpace (processText t)) = processText t) ∧
    processText (strLit "hello world") = [strLit "hello", strLit "world"] ∧
    processText (joinSpace (processText (strLit "hello world"))) =
      [strLit "hello", strLit "world"] := by
  refine ⟨?_, by decide, by decide⟩
  intro t
  have hchars := processText_chars t
  have hjoin_chars : ∀ n ∈ joinSpace (processText t),
      lowerCode n = n ∧ deleteCodes.contains n = false := by
    intro n hn
    rcases mem_joinSpace (processText t) n hn with rfl | ⟨w, hw, hnw⟩
    · exact ⟨rfl, rfl⟩
    · exact (hchars w hw n hnw).1
  have h1 : pyLower (joinSpace (processText t)) = joinSpace (processText t) :=
    map_id_of_fixed lowerCode _ (fun n hn => (hjoin_chars n hn).1)
  have h2 : translateDel (joinSpace (processText t)) = joinSpace (processText t) := by
    apply filter_all_of_true
    intro n hn
    have := (hjoin_chars n hn).2
    simpa using this
  show pySplit (translateDel (pyLower (joinSpace (processText t)))) = processText t
  rw [h1, h2]
  exact splitAux_joinSpace (processText t)
    (fun w hw => ⟨splitAux_ne_nil _ [] w hw,
      fun n hn => (hchars w hw n hn).2⟩)

end TextAnalyzer
